import Mathlib

/-!
Verification development for the Mnemonic Inventory Hub ("livesales26v").

The development shallowly embeds the three code sites the specification's
claims are about:

* `runInventoryEngine` — the Google Apps Script allocation engine from
  `architecture.md` (the second, authoritative listing, lines 225–264).
  Sheet rows become Lean structures; the JS object `stockLevels` becomes an
  insertion-ordered association list; `parseInt` quantities become `Int`.
* `BuyerPortal.handleSubmit` — the local order-placement path from
  `components/InventoryInput.tsx` (lines 446–480).
* `groupedOrders` — the order-grouping projection from
  `components/SellerDashboard.tsx` (lines 99–139), and
  `fetchInventoryFromSheets` — the sync-ingest boundary from `App.tsx`
  (lines 50–159).

JS numbers are modelled as `Int` (quantities, `parseInt` results) and `Rat`
(prices, `parseFloat` results); timestamps the engine never reads are
modelled as `Nat` instants.
-/

namespace LiveSales

/-! ## ASCII string helpers

The sheet data is ASCII; these mirror the JS `toUpperCase`, `toLowerCase`,
`trim`, `startsWith` and `includes` used at the ingest and grouping sites,
written over the character list so they evaluate by kernel reduction. -/

/-- ASCII uppercase of one character. -/
def upChar (c : Char) : Char :=
  if 'a' ≤ c ∧ c ≤ 'z' then Char.ofNat (c.toNat - 32) else c

/-- ASCII lowercase of one character. -/
def lowChar (c : Char) : Char :=
  if 'A' ≤ c ∧ c ≤ 'Z' then Char.ofNat (c.toNat + 32) else c

/-- JS `s.toUpperCase()` on ASCII data. -/
def strUpper (s : String) : String :=
  String.mk (s.data.map upChar)

/-- JS `s.toLowerCase()` on ASCII data. -/
def strLower (s : String) : String :=
  String.mk (s.data.map lowChar)

/-- Whitespace for `trim`. -/
def isSpaceChar (c : Char) : Bool :=
  c == ' ' || c == '\t' || c == '\n' || c == '\r'

/-- JS `s.trim()`. -/
def strTrim (s : String) : String :=
  String.mk (((s.data.dropWhile isSpaceChar).reverse.dropWhile
    isSpaceChar).reverse)

/-- `pat` begins the character list. -/
def charListStarts : List Char → List Char → Bool
  | [], _ => true
  | _ :: _, [] => false
  | a :: as, b :: bs => a == b && charListStarts as bs

/-- JS `s.startsWith(pat)`. -/
def strStartsWith (s pat : String) : Bool :=
  charListStarts pat.data s.data

/-- `pat` occurs somewhere in the character list. -/
def charListHasSub (pat : List Char) : List Char → Bool
  | [] => charListStarts pat []
  | b :: bs => charListStarts pat (b :: bs) || charListHasSub pat bs

/-- JS `s.includes(pat)` — substring containment. -/
def strHasSub (s pat : String) : Bool :=
  charListHasSub pat.data s.data

/-! ## Engine data model (architecture.md, Apps Script) -/

/-- A row of the `Master_Inventory` sheet:
`[Category, ItemName, Price, InitialQuantity, Mnemonic, AllowUpsell]`. -/
structure MasterRow where
  category : String
  itemName : String
  price : Rat
  initial : Int
  mnemonic : String
  deriving Repr, DecidableEq

/-- A row of the `Orders` sheet:
`[OrderID, Timestamp, Buyer, Email, ItemName, Mnemonic, Quantity, Address, Status, Payment]`.
The engine reads columns 5 (mnemonic) and 6 (quantity) and writes column 8
(status); the timestamp column is carried but never read by the engine. -/
structure OrderRow where
  orderId : String
  timestamp : Nat
  buyer : String
  email : String
  itemName : String
  mnemonic : String
  qty : Int
  address : String
  status : String
  deriving Repr, DecidableEq

/-- The per-mnemonic record held in the JS object `stockLevels`:
`{ category, name, price, initial, remaining, sold, waitlisted }`. -/
structure StockLevel where
  category : String
  name : String
  price : Rat
  initial : Int
  remaining : Int
  sold : Int
  waitlisted : Int
  deriving Repr, DecidableEq

/-- `stockLevels` is a JS object keyed by mnemonic; insertion-ordered
association list with unique keys. -/
abbrev StockLevels := List (String × StockLevel)

/-- `stockLevels[m]` — property read on the JS object. -/
def lookupStock : StockLevels → String → Option StockLevel
  | [], _ => none
  | p :: rest, m => if p.1 = m then some p.2 else lookupStock rest m

/-- In-place update of the value stored at an existing key `m`
(key set and entry order unchanged, as for a JS property write on a
present key). -/
def setStock : StockLevels → String → StockLevel → StockLevels
  | [], _, _ => []
  | p :: rest, m, v =>
      if p.1 = m then (m, v) :: setStock rest m v else p :: setStock rest m v

/-- `stockLevels[m] = v` on a possibly-absent key: overwrite in place if
present, append at the end otherwise (JS property-insertion order). -/
def upsertStock (s : StockLevels) (m : String) (v : StockLevel) : StockLevels :=
  if (lookupStock s m).isSome then setStock s m v else s ++ [(m, v)]

/-- `masterData.forEach(row => stockLevels[row[4]] = { ...,
initial: row[3], remaining: row[3], sold: 0, waitlisted: 0 })`. -/
def initStock (master : List MasterRow) : StockLevels :=
  master.foldl
    (fun acc row =>
      upsertStock acc row.mnemonic
        { category := row.category, name := row.itemName, price := row.price,
          initial := row.initial, remaining := row.initial,
          sold := 0, waitlisted := 0 })
    []

/-- The body of `orderData.forEach(order => ...)`: one order row against the
current `stockLevels`; returns the updated levels and the status string the
engine writes into column 8. -/
def allocStep (s : StockLevels) (o : OrderRow) : StockLevels × String :=
  match lookupStock s o.mnemonic with
  | some stock =>
      if stock.remaining ≥ o.qty then
        (setStock s o.mnemonic
          { stock with remaining := stock.remaining - o.qty,
                       sold := stock.sold + o.qty },
         "Confirmed")
      else
        (setStock s o.mnemonic
          { stock with waitlisted := stock.waitlisted + o.qty },
         "Waitlisted")
  | none => (s, "Waitlisted")

/-- The engine's loop over the order rows, in sheet-row order, returning the
final stock levels and the status written for each row (row order). -/
def runAlloc (s : StockLevels) : List OrderRow → StockLevels × List String
  | [] => (s, [])
  | o :: rest =>
      let step := allocStep s o
      let r := runAlloc step.1 rest
      (r.1, step.2 :: r.2)

/-- `runInventoryEngine`: build `stockLevels` from `Master_Inventory`, then
fold the order rows. -/
def runInventoryEngine (master : List MasterRow) (rows : List OrderRow) :
    StockLevels × List String :=
  runAlloc (initStock master) rows

/-- The `Orders` sheet contents after `orderRange.setValues(orderData)`:
each row with its column 8 replaced by the engine's status. -/
def engineOrdersOut (master : List MasterRow) (rows : List OrderRow) :
    List OrderRow :=
  List.zipWith (fun r st => { r with status := st }) rows
    (runInventoryEngine master rows).2

/-! ## App data model (`types.ts`) -/

/-- `Item` from `types.ts`. -/
structure Item where
  id : String
  category : String
  name : String
  price : Rat
  quantity : Int
  mnemonic : String
  order : Int
  allowUpsell : Bool
  deriving Repr, DecidableEq

/-- The `status` union type `'confirmed' | 'waitlisted'` of `Order`. -/
inductive OrderStatus where
  | confirmed
  | waitlisted
  deriving Repr, DecidableEq

/-- `Order` from `types.ts`. -/
structure Order where
  id : String
  orderId : String
  itemId : String
  itemName : String
  mnemonic : String
  buyerName : String
  buyerEmail : String
  quantity : Int
  address : String
  timestamp : String
  status : OrderStatus
  deriving Repr, DecidableEq

/-! ## Buyer portal local order placement
(`components/InventoryInput.tsx`, `handleSubmit`, lines 446–480) -/

/-- The `formData` fields carried onto each placed line. -/
structure BuyerForm where
  name : String
  email : String
  address : String
  deriving Repr, DecidableEq

/-- The body of `orderLines.forEach(({ item: it, qty }, idx) => ...)`:
computes the optimistic status from the captured item record, pushes the
new order line, and decrements the matching stored item's quantity clamped
at zero (`Math.max(0, i.quantity - qty)`). -/
def buyerStep (form : BuyerForm) (now oid : String)
    (st : List Item × List Order) (idx : Nat) (line : Item × Int) :
    List Item × List Order :=
  let it := line.1
  let qty := line.2
  let status := if it.quantity ≥ qty then OrderStatus.confirmed
                else OrderStatus.waitlisted
  (st.1.map (fun i =>
      if i.id = it.id then { i with quantity := max 0 (i.quantity - qty) }
      else i),
   st.2 ++ [{ id := now ++ "-" ++ toString idx, orderId := oid,
              itemId := it.id, itemName := it.name, mnemonic := it.mnemonic,
              buyerName := form.name, buyerEmail := form.email,
              quantity := qty, address := form.address, timestamp := now,
              status := status }])

/-- `handleSubmit`'s loop over `orderLines` (primary line plus upsell
extras), threading `updatedItems` and appending the new lines after the
existing orders, as `onOrderPlaced(updatedItems, [...orders, ...newOrders])`
does. -/
def placeOrder (form : BuyerForm) (now oid : String)
    (lines : List (Item × Int)) (items0 : List Item)
    (orders0 : List Order) : List Item × List Order :=
  lines.enum.foldl (fun st p => buyerStep form now oid st p.1 p.2)
    (items0, orders0)

/-- `find?`-based view of the stored quantity of the item with a given id. -/
def qtyOfId (items : List Item) (i : String) : Option Int :=
  (items.find? (fun x => x.id = i)).map (fun x => x.quantity)

/-! ## Seller dashboard order grouping
(`components/SellerDashboard.tsx`, `groupedOrders`, lines 99–139) -/

/-- `GroupedOrder` as accumulated by `groupedOrders`. -/
structure GroupedOrder where
  orderId : String
  timestamp : String
  buyerName : String
  buyerEmail : String
  address : String
  lines : List Order
  totalQty : Int
  distinctItems : Nat
  totalCost : Rat
  overallStatus : String
  hasWaitlistedLine : Bool
  deriving Repr, DecidableEq

/-- The grouping key `(o.orderId || 'UNKNOWN').toUpperCase()`; the only
falsy string is the empty one. -/
def normKey (o : Order) : String :=
  strUpper (if o.orderId = "" then "UNKNOWN" else o.orderId)

/-- `itemPriceMap.get(m) || 0`: the price map is built by
`new Map(items.map(i => [i.mnemonic.toUpperCase(), i.price]))`, so a
duplicate uppercased mnemonic keeps the last entry; a missing key (or a
price of 0) yields 0. -/
def priceOf (items : List Item) (m : String) : Rat :=
  match items.reverse.find? (fun i => strUpper i.mnemonic = m) with
  | some i => i.price
  | none => 0

/-- `groups` is a JS object keyed by the normalized group key. -/
abbrev GroupsAssoc := List (String × GroupedOrder)

/-- `groups[key]` read. -/
def lookupGroup : GroupsAssoc → String → Option GroupedOrder
  | [], _ => none
  | p :: rest, k => if p.1 = k then some p.2 else lookupGroup rest k

/-- In-place overwrite of the group stored at an existing key. -/
def setGroup : GroupsAssoc → String → GroupedOrder → GroupsAssoc
  | [], _, _ => []
  | p :: rest, k, v =>
      if p.1 = k then (k, v) :: setGroup rest k v else p :: setGroup rest k v

/-- The per-line accumulation on an existing or fresh group: push the line,
add its quantity, add `price * quantity`, and latch `hasWaitlistedLine`. -/
def pushLine (price : String → Rat) (g : GroupedOrder) (o : Order) :
    GroupedOrder :=
  { g with lines := g.lines ++ [o],
           totalQty := g.totalQty + o.quantity,
           totalCost := g.totalCost + price (strUpper o.mnemonic) * o.quantity,
           hasWaitlistedLine :=
             g.hasWaitlistedLine || (o.status == OrderStatus.waitlisted) }

/-- The fresh group record created on first sight of a key (it carries the
first line's metadata and the accumulator's initial values). -/
def freshGroup (o : Order) : GroupedOrder :=
  { orderId := o.orderId, timestamp := o.timestamp,
    buyerName := o.buyerName, buyerEmail := o.buyerEmail,
    address := o.address, lines := [], totalQty := 0,
    distinctItems := 0, totalCost := 0,
    overallStatus := "confirmed", hasWaitlistedLine := false }

/-- The body of `orders.forEach(o => ...)`: create the group record on
first sight of a key, then accumulate the line into it. -/
def addLine (price : String → Rat) (gs : GroupsAssoc) (o : Order) :
    GroupsAssoc :=
  let key := normKey o
  match lookupGroup gs key with
  | none => gs ++ [(key, pushLine price (freshGroup o) o)]
  | some g => setGroup gs key (pushLine price g o)

/-- The populated `groups` object after the `forEach`. -/
def groupsAssoc (items : List Item) (orders : List Order) : GroupsAssoc :=
  orders.foldl (addLine (priceOf items)) []

/-- The `overallStatus` derivation of the final `.map`:
`mixed` when the lines hold both statuses, else `waitlisted` when any line
is waitlisted, else `confirmed`. -/
def overallStatusOf (lines : List Order) : String :=
  let hasConfirmed := lines.any (fun l => l.status == OrderStatus.confirmed)
  let hasWaitlisted := lines.any (fun l => l.status == OrderStatus.waitlisted)
  if hasConfirmed && hasWaitlisted then "mixed"
  else if hasWaitlisted then "waitlisted"
  else "confirmed"

/-- The final `.map(g => ...)` over `Object.values(groups)`: set
`distinctItems` to the line count (as the source does) and derive
`overallStatus`. -/
def finishGroup (g : GroupedOrder) : GroupedOrder :=
  { g with distinctItems := g.lines.length,
           overallStatus := overallStatusOf g.lines }

/-- `groupedOrders`: the finished groups, in key-insertion order. The
trailing display sort by parsed timestamp descending only permutes the
array and is omitted; group contents and statuses are unaffected by it. -/
def groupedOrders (items : List Item) (orders : List Order) :
    List GroupedOrder :=
  (groupsAssoc items orders).map (fun p => finishGroup p.2)

/-! ## Sync ingest boundary (`App.tsx`, `fetchInventoryFromSheets`,
lines 50–159) -/

/-- JS `a || d` on a possibly-absent string: the only falsy string is
the empty one. -/
def jsOrStr (v : Option String) (d : String) : String :=
  match v with
  | some s => if s = "" then d else s
  | none => d

/-- JS `a || d` on a possibly-absent number: 0 is falsy. -/
def jsOrInt (v : Option Int) (d : Int) : Int :=
  match v with
  | some n => if n = 0 then d else n
  | none => d

/-- JS `a || d` on a possibly-absent decimal: 0 is falsy. -/
def jsOrRat (v : Option Rat) (d : Rat) : Rat :=
  match v with
  | some q => if q = 0 then d else q
  | none => d

/-- `isTruthy` from `App.tsx` on the string encodings delivered by the
sheet (`'true' | '1' | 'yes' | 'checked'`, case-insensitively). -/
def isTruthy (s : String) : Bool :=
  let l := strLower s
  l == "true" || l == "1" || l == "yes" || l == "checked"

/-- A raw synced inventory record, with every alias field the mapper
probes; absent JS fields are `none`. Numeric cells are carried as numbers
(`parseInt`/`parseFloat` of a numeric cell). -/
structure RawItem where
  id : Option String := none
  mnemonic : Option String := none
  Mnemonic : Option String := none
  Category : Option String := none
  category : Option String := none
  ItemName : Option String := none
  itemName : Option String := none
  Item_Name : Option String := none
  name : Option String := none
  Price : Option Rat := none
  price : Option Rat := none
  AvailableBalance : Option Int := none
  quantity : Option Int := none
  Balance : Option Int := none
  Quantity : Option Int := none
  order : Option Int := none
  AllowUpsell : Option String := none
  allowUpsell : Option String := none
  deriving Repr, DecidableEq

/-- A raw synced order record, with every alias field the mapper probes. -/
structure RawOrder where
  OrderID : Option String := none
  orderId : Option String := none
  id : Option String := none
  Status : Option String := none
  AppStatus : Option String := none
  appStatus : Option String := none
  status : Option String := none
  Mnemonic : Option String := none
  mnemonic : Option String := none
  Buyer : Option String := none
  buyerName : Option String := none
  Email : Option String := none
  email : Option String := none
  ItemName : Option String := none
  itemName : Option String := none
  item_name : Option String := none
  Quantity : Option Int := none
  quantity : Option Int := none
  Address : Option String := none
  address : Option String := none
  Timestamp : Option String := none
  timestamp : Option String := none
  itemId : Option String := none
  deriving Repr, DecidableEq

/-- `it.AvailableBalance !== undefined ? ... : ...` chain for the mapped
quantity: picks the first *present* field (a `!== undefined` check, not a
truthiness check), defaulting to 0. -/
def rawItemQty (it : RawItem) : Int :=
  match it.AvailableBalance with
  | some n => n
  | none =>
    match it.quantity with
    | some n => n
    | none =>
      match it.Balance with
      | some n => n
      | none =>
        match it.Quantity with
        | some n => n
        | none => 0

/-- One mapped inventory record (`mappedItems` element at index `idx`). -/
def mapItemRow (idx : Nat) (it : RawItem) : Item :=
  { id := jsOrStr it.id (jsOrStr it.mnemonic
      (jsOrStr it.Mnemonic ("item-" ++ toString idx))),
    category := jsOrStr it.Category (jsOrStr it.category "General"),
    name := jsOrStr it.ItemName (jsOrStr it.itemName
      (jsOrStr it.Item_Name (jsOrStr it.name "Unknown Item"))),
    price := jsOrRat it.Price (jsOrRat it.price 0),
    quantity := rawItemQty it,
    mnemonic := strUpper (jsOrStr it.Mnemonic (jsOrStr it.mnemonic "")),
    order := match it.order with | some n => n | none => (idx : Int),
    allowUpsell := isTruthy (jsOrStr it.AllowUpsell
      (jsOrStr it.allowUpsell "")) }

/-- `mappedItems`: map with index, then drop records whose normalized
mnemonic is empty (`.filter(it => it.mnemonic)`). -/
def mapItems (rows : List RawItem) : List Item :=
  (rows.enum.map (fun p => mapItemRow p.1 p.2)).filter
    (fun i => i.mnemonic ≠ "")

/-- The order filter
`o && (o.OrderID || o.orderId || o.Mnemonic || o.mnemonic || o.Buyer || o.buyerName)`. -/
def rawOrderKept (o : RawOrder) : Bool :=
  jsOrStr o.OrderID "" ≠ "" || jsOrStr o.orderId "" ≠ "" ||
  jsOrStr o.Mnemonic "" ≠ "" || jsOrStr o.mnemonic "" ≠ "" ||
  jsOrStr o.Buyer "" ≠ "" || jsOrStr o.buyerName "" ≠ ""

/-- `statusRaw`: the resolved raw status string,
`String(o.Status || o.AppStatus || o.appStatus || o.status || 'confirmed').toLowerCase()`. -/
def statusRaw (o : RawOrder) : String :=
  strLower (jsOrStr o.Status (jsOrStr o.AppStatus
    (jsOrStr o.appStatus (jsOrStr o.status "confirmed"))))

/-- One mapped order record (`mappedOrders` element at index `idx`); `now`
stands for `new Date().toISOString()`. -/
def mapOrderRow (now : String) (idx : Nat) (o : RawOrder) : Order :=
  let oid := jsOrStr o.OrderID (jsOrStr o.orderId
    (jsOrStr o.id ("CLD-" ++ toString idx)))
  { id := jsOrStr o.id (oid ++ "-" ++ toString idx),
    orderId := oid,
    itemId := jsOrStr o.itemId "",
    itemName := jsOrStr o.ItemName (jsOrStr o.itemName
      (jsOrStr o.item_name "Item")),
    mnemonic := strUpper (jsOrStr o.Mnemonic (jsOrStr o.mnemonic "N/A")),
    buyerName := jsOrStr o.Buyer (jsOrStr o.buyerName "Guest"),
    buyerEmail := jsOrStr o.Email (jsOrStr o.email "-"),
    quantity := jsOrInt o.Quantity (jsOrInt o.quantity 0),
    address := jsOrStr o.Address (jsOrStr o.address "-"),
    timestamp := jsOrStr o.Timestamp (jsOrStr o.timestamp now),
    status := if strHasSub (statusRaw o) "waitlist" then
        OrderStatus.waitlisted
      else OrderStatus.confirmed }

/-- `mappedOrders`: filter, then map with index over the kept records. -/
def mapOrders (now : String) (rows : List RawOrder) : List Order :=
  (rows.filter rawOrderKept).enum.map (fun p => mapOrderRow now p.1 p.2)

/-- The in-memory state the fetch may replace: the `items` and `orders`
React state (their `localStorage` mirrors follow them verbatim). -/
structure AppState where
  items : List Item
  orders : List Order
  deriving Repr, DecidableEq

/-- The payload arrays extracted from a parsed response body (after the
`data.Inventory || data.inventory || ...` alias dispatch). -/
structure SheetData where
  rawItems : List RawItem
  rawOrders : List RawOrder
  deriving Repr, DecidableEq

/-- Outcome of the `fetch` + `response.json()` pair:
`netError` for a rejected fetch (network failure or the 20s abort);
`httpResponse ok body` for a settled response, where `body = none` means
`response.json()` threw on an unparsable body. -/
inductive FetchResponse where
  | netError
  | httpResponse (ok : Bool) (body : Option SheetData)
  deriving Repr, DecidableEq

/-- The early-return URL guard: `const url = (rawUrl || '').trim();
if (!url || !url.startsWith('http'))`. -/
def validUrl (rawUrl : String) : Bool :=
  let url := strTrim rawUrl
  url ≠ "" && strStartsWith url "http"

/-- `fetchInventoryFromSheets`: `setItems`/`setOrders` run only after the
body parses inside the `try`; every failure path lands in `catch` (or the
early return) having mutated nothing. -/
def fetchInventoryFromSheets (st : AppState) (rawUrl : String)
    (resp : FetchResponse) (now : String) : AppState :=
  if !(validUrl rawUrl) then st
  else
    match resp with
    | .netError => st
    | .httpResponse ok body =>
      if !ok then st
      else
        match body with
        | none => st
        | some data =>
            { items := mapItems data.rawItems,
              orders := mapOrders now data.rawOrders }

/-! ## Verification-side definitions -/

/-- The engine's per-item invariant: the figures the engine writes back to
the `Inventory` sheet satisfy `sold + remaining = initial` with a
non-negative remaining balance. -/
def StockInv (s : StockLevels) : Prop :=
  ∀ p ∈ s, p.2.sold + p.2.remaining = p.2.initial ∧ 0 ≤ p.2.remaining

/-- The part of an order row the engine's allocation actually reads:
columns 5 and 6 (mnemonic and quantity). -/
def rowKey (o : OrderRow) : String × Int :=
  (o.mnemonic, o.qty)

/-- The lines of the group stored at a key. -/
def groupLines (gs : GroupsAssoc) (k : String) : Option (List Order) :=
  (lookupGroup gs k).map (fun g => g.lines)

/-! ## Association-list lemmas for `stockLevels` -/

theorem lookupStock_setStock_self {s : StockLevels} {m : String}
    {stock : StockLevel} (v : StockLevel)
    (h : lookupStock s m = some stock) :
    lookupStock (setStock s m v) m = some v := by
  induction s with
  | nil => simp [lookupStock] at h
  | cons p rest ih =>
    by_cases hp : p.1 = m
    · simp [lookupStock, setStock, hp]
    · simp only [lookupStock, setStock, if_neg hp] at h ⊢
      exact ih h

theorem lookupStock_setStock_none {s : StockLevels} {m m' : String}
    (v : StockLevel) (h : lookupStock s m = none) :
    lookupStock (setStock s m' v) m = none := by
  induction s with
  | nil => simp [lookupStock, setStock]
  | cons p rest ih =>
    by_cases hm : p.1 = m
    · simp [lookupStock, hm] at h
    · by_cases hp : p.1 = m'
      · have hm2 : ¬(m' = m) := fun hc => hm (hp.trans hc)
        simp only [lookupStock, setStock, if_pos hp, if_neg hm2]
        exact ih (by simpa [lookupStock, if_neg hm] using h)
      · simp only [lookupStock, setStock, if_neg hp, if_neg hm] at h ⊢
        exact ih h

theorem mem_setStock {s : StockLevels} {m : String} {v : StockLevel}
    {p : String × StockLevel} (h : p ∈ setStock s m v) :
    p ∈ s ∨ p = (m, v) := by
  induction s with
  | nil => simp [setStock] at h
  | cons q rest ih =>
    by_cases hq : q.1 = m
    · simp only [setStock, if_pos hq, List.mem_cons] at h
      rcases h with h | h
      · right; exact h
      · rcases ih h with h2 | h2
        · left; exact List.mem_cons_of_mem _ h2
        · right; exact h2
    · simp only [setStock, if_neg hq, List.mem_cons] at h
      rcases h with h | h
      · left; simp [h]
      · rcases ih h with h2 | h2
        · left; exact List.mem_cons_of_mem _ h2
        · right; exact h2

theorem mem_of_lookupStock {s : StockLevels} {m : String}
    {stock : StockLevel} (h : lookupStock s m = some stock) :
    (m, stock) ∈ s := by
  induction s with
  | nil => simp [lookupStock] at h
  | cons p rest ih =>
    by_cases hp : p.1 = m
    · simp only [lookupStock, if_pos hp, Option.some.injEq] at h
      obtain ⟨p1, p2⟩ := p
      simp only at hp h
      subst hp
      subst h
      exact List.mem_cons_self _ _
    · simp only [lookupStock, if_neg hp] at h
      exact List.mem_cons_of_mem _ (ih h)

/-! ## Engine step and run lemmas -/

theorem allocStep_of_lookup_none {s : StockLevels} {o : OrderRow}
    (h : lookupStock s o.mnemonic = none) :
    allocStep s o = (s, "Waitlisted") := by
  simp [allocStep, h]

theorem lookup_none_allocStep {s : StockLevels} {m : String} (o : OrderRow)
    (h : lookupStock s m = none) :
    lookupStock (allocStep s o).1 m = none := by
  unfold allocStep
  cases hl : lookupStock s o.mnemonic with
  | none => simpa using h
  | some stock =>
    by_cases hr : stock.remaining ≥ o.qty
    · simpa [hr] using lookupStock_setStock_none _ h
    · simpa [hr] using lookupStock_setStock_none _ h

theorem runAlloc_append (s : StockLevels) (xs ys : List OrderRow) :
    runAlloc s (xs ++ ys) =
      ((runAlloc (runAlloc s xs).1 ys).1,
       (runAlloc s xs).2 ++ (runAlloc (runAlloc s xs).1 ys).2) := by
  induction xs generalizing s with
  | nil => simp [runAlloc]
  | cons x xs ih => simp [runAlloc, ih]

theorem runAlloc_statuses_length (s : StockLevels) (rows : List OrderRow) :
    (runAlloc s rows).2.length = rows.length := by
  induction rows generalizing s with
  | nil => simp [runAlloc]
  | cons r rows ih => simp [runAlloc, ih]

theorem lookup_none_runAlloc {s : StockLevels} {m : String}
    (rows : List OrderRow) (h : lookupStock s m = none) :
    lookupStock (runAlloc s rows).1 m = none := by
  induction rows generalizing s with
  | nil => simpa [runAlloc] using h
  | cons r rows ih =>
    simp only [runAlloc]
    exact ih (lookup_none_allocStep r h)

/-! ## Conservation invariant -/

theorem stockInv_setStock {s : StockLevels} {m : String} {v : StockLevel}
    (hs : StockInv s)
    (hv : v.sold + v.remaining = v.initial ∧ 0 ≤ v.remaining) :
    StockInv (setStock s m v) := by
  intro p hp
  rcases mem_setStock hp with h | h
  · exact hs p h
  · rw [h]; exact hv

theorem stockInv_upsertStock {s : StockLevels} {m : String} {v : StockLevel}
    (hs : StockInv s)
    (hv : v.sold + v.remaining = v.initial ∧ 0 ≤ v.remaining) :
    StockInv (upsertStock s m v) := by
  unfold upsertStock
  by_cases hl : (lookupStock s m).isSome
  · simpa [hl] using stockInv_setStock hs hv
  · simp only [hl, if_false]
    intro p hp
    rcases List.mem_append.mp hp with h | h
    · exact hs p h
    · simp only [List.mem_singleton] at h
      rw [h]; exact hv

theorem stockInv_initStock {master : List MasterRow}
    (h : ∀ r ∈ master, 0 ≤ r.initial) :
    StockInv (initStock master) := by
  unfold initStock
  have gen : ∀ (rows : List MasterRow) (acc : StockLevels),
      StockInv acc → (∀ r ∈ rows, 0 ≤ r.initial) →
      StockInv (rows.foldl (fun acc row =>
        upsertStock acc row.mnemonic
          { category := row.category, name := row.itemName,
            price := row.price, initial := row.initial,
            remaining := row.initial, sold := 0, waitlisted := 0 }) acc) := by
    intro rows
    induction rows with
    | nil => intro acc hacc _; simpa using hacc
    | cons r rows ih =>
      intro acc hacc hr
      simp only [List.foldl_cons]
      refine ih _ (stockInv_upsertStock hacc ?_) ?_
      · exact ⟨by simp, hr r (List.mem_cons_self _ _)⟩
      · intro x hx; exact hr x (List.mem_cons_of_mem _ hx)
  refine gen master [] ?_ h
  intro p hp
  simp at hp

theorem stockInv_allocStep {s : StockLevels} (o : OrderRow)
    (hs : StockInv s) : StockInv (allocStep s o).1 := by
  unfold allocStep
  cases hl : lookupStock s o.mnemonic with
  | none => simpa using hs
  | some stock =>
    obtain ⟨h1, h2⟩ := hs _ (mem_of_lookupStock hl)
    simp only at h1 h2
    by_cases hr : stock.remaining ≥ o.qty
    · simp only [hr, if_true]
      refine stockInv_setStock hs ⟨?_, ?_⟩
      · simp only
        omega
      · simp only
        omega
    · simp only [hr, if_false]
      refine stockInv_setStock hs ⟨?_, ?_⟩
      · simp only
        exact h1
      · simp only
        exact h2

theorem stockInv_runAlloc {s : StockLevels} (rows : List OrderRow)
    (hs : StockInv s) : StockInv (runAlloc s rows).1 := by
  induction rows generalizing s with
  | nil => simpa [runAlloc] using hs
  | cons r rows ih =>
    simp only [runAlloc]
    exact ih (stockInv_allocStep r hs)

/-! ## Allocation reads only mnemonic and quantity -/

theorem allocStep_congr {o o' : OrderRow} (s : StockLevels)
    (h : rowKey o = rowKey o') : allocStep s o = allocStep s o' := by
  unfold rowKey at h
  have hm : o.mnemonic = o'.mnemonic := congrArg Prod.fst h
  have hq : o.qty = o'.qty := congrArg Prod.snd h
  unfold allocStep
  rw [hm, hq]

theorem runAlloc_congr {rows rows' : List OrderRow} (s : StockLevels)
    (h : rows.map rowKey = rows'.map rowKey) :
    runAlloc s rows = runAlloc s rows' := by
  induction rows generalizing rows' s with
  | nil =>
    cases rows' with
    | nil => rfl
    | cons r rs => simp at h
  | cons r rs ih =>
    cases rows' with
    | nil => simp at h
    | cons r' rs' =>
      simp only [List.map_cons, List.cons.injEq] at h
      simp only [runAlloc]
      rw [allocStep_congr s h.1, ih _ h.2]

theorem map_rowKey_zipWith_status (rows : List OrderRow)
    (sts : List String) (h : rows.length ≤ sts.length) :
    (List.zipWith (fun r st => { r with status := st }) rows sts).map rowKey
      = rows.map rowKey := by
  induction rows generalizing sts with
  | nil => simp
  | cons r rs ih =>
    cases sts with
    | nil => simp at h
    | cons s ss =>
      simp only [List.zipWith_cons_cons, List.map_cons, List.cons.injEq]
      exact ⟨rfl, ih ss (by simpa using h)⟩

theorem engineOrdersOut_map_rowKey (master : List MasterRow)
    (rows : List OrderRow) :
    (engineOrdersOut master rows).map rowKey = rows.map rowKey := by
  unfold engineOrdersOut
  exact map_rowKey_zipWith_status rows _
    (le_of_eq (runAlloc_statuses_length _ rows).symm)

theorem zipWith_status_overwrite (rows : List OrderRow)
    (sts : List String) :
    List.zipWith (fun r st => { r with status := st })
      (List.zipWith (fun r st => { r with status := st }) rows sts) sts
      = List.zipWith (fun r st => { r with status := st }) rows sts := by
  induction rows generalizing sts with
  | nil => simp
  | cons r rs ih =>
    cases sts with
    | nil => simp
    | cons s ss => simp [ih]

/-! ## Buyer-path lemmas -/

theorem qtyOfId_buyerStep_self {items : List Item} {it : Item} {q0 : Int}
    (form : BuyerForm) (now oid : String) (ords : List Order) (idx : Nat)
    (qty : Int) (h : qtyOfId items it.id = some q0) :
    qtyOfId (buyerStep form now oid (items, ords) idx (it, qty)).1 it.id
      = some (max 0 (q0 - qty)) := by
  induction items with
  | nil => simp [qtyOfId] at h
  | cons i rest ih =>
    by_cases hid : i.id = it.id
    · simp only [qtyOfId, List.find?_cons, hid, decide_True,
        Option.map_some', Option.some.injEq] at h
      subst h
      simp [buyerStep, qtyOfId, List.find?_cons, hid]
    · simp only [qtyOfId, List.find?_cons, hid, decide_False] at h
      have step := ih h
      simp only [buyerStep, List.map_cons, if_neg hid] at step ⊢
      simp only [qtyOfId, List.find?_cons, hid, decide_False]
      exact step

theorem qtyOfId_buyerStep_other {items : List Item} {it : Item}
    {tid : String} (form : BuyerForm) (now oid : String)
    (ords : List Order) (idx : Nat) (qty : Int) (h : tid ≠ it.id) :
    qtyOfId (buyerStep form now oid (items, ords) idx (it, qty)).1 tid
      = qtyOfId items tid := by
  induction items with
  | nil => simp [qtyOfId, buyerStep]
  | cons i rest ih =>
    by_cases hid : i.id = it.id
    · simp only [buyerStep, List.map_cons, if_pos hid] at ih ⊢
      have hne : ¬(({ i with quantity := max 0 (i.quantity - qty) } :
          Item).id = tid) := by
        simp only
        rw [hid]
        exact fun hc => h hc.symm
      have hne2 : ¬(i.id = tid) := by
        rw [hid]; exact fun hc => h hc.symm
      simp only [qtyOfId, List.find?_cons, hne, hne2, decide_False]
      exact ih
    · simp only [buyerStep, List.map_cons, if_neg hid] at ih ⊢
      by_cases ht : i.id = tid
      · simp [qtyOfId, List.find?_cons, ht]
      · simp only [qtyOfId, List.find?_cons, ht, decide_False]
        exact ih

theorem buyerStep_items_nonneg {items : List Item} (form : BuyerForm)
    (now oid : String) (ords : List Order) (idx : Nat) (line : Item × Int)
    (h : ∀ i ∈ items, 0 ≤ i.quantity) :
    ∀ i ∈ (buyerStep form now oid (items, ords) idx line).1,
      0 ≤ i.quantity := by
  intro i hi
  simp only [buyerStep] at hi
  rcases List.mem_map.mp hi with ⟨j, hj, hrw⟩
  by_cases hid : j.id = line.1.id
  · rw [← hrw, if_pos hid]
    simp only
    exact le_max_left _ _
  · rw [← hrw, if_neg hid]
    exact h j hj

theorem buyerStep_orders (form : BuyerForm) (now oid : String)
    (st : List Item × List Order) (idx : Nat) (line : Item × Int) :
    (buyerStep form now oid st idx line).2 =
      st.2 ++ [{ id := now ++ "-" ++ toString idx, orderId := oid,
                 itemId := line.1.id, itemName := line.1.name,
                 mnemonic := line.1.mnemonic,
                 buyerName := form.name, buyerEmail := form.email,
                 quantity := line.2, address := form.address,
                 timestamp := now,
                 status := if line.1.quantity ≥ line.2 then
                     OrderStatus.confirmed
                   else OrderStatus.waitlisted }] := rfl

theorem placeOrder_items_nonneg {items0 : List Item} (form : BuyerForm)
    (now oid : String) (lines : List (Item × Int)) (orders0 : List Order)
    (h : ∀ i ∈ items0, 0 ≤ i.quantity) :
    ∀ i ∈ (placeOrder form now oid lines items0 orders0).1,
      0 ≤ i.quantity := by
  unfold placeOrder
  have gen : ∀ (l : List (Nat × (Item × Int))) (st : List Item × List Order),
      (∀ i ∈ st.1, 0 ≤ i.quantity) →
      ∀ i ∈ (l.foldl (fun st p => buyerStep form now oid st p.1 p.2) st).1,
        0 ≤ i.quantity := by
    intro l
    induction l with
    | nil => intro st hst; simpa using hst
    | cons p rest ih =>
      intro st hst
      simp only [List.foldl_cons]
      refine ih _ ?_
      have := buyerStep_items_nonneg form now oid st.2 p.1 p.2 hst
      simpa using this
  exact gen _ _ h

/-! ## Claim C1 -/

/-- Claim C1, as stated, is false of the code: `runInventoryEngine` never
sorts the order rows by timestamp — it folds them in sheet-row (input
array) order. With one unit of stock and two one-unit lines for the same
item, putting the *later*-timestamped line first in the array gets it
confirmed and waitlists the earlier-timestamped line, contradicting the
claimed timestamp-order FIFO. -/
theorem engine_ignores_timestamps_cex :
    (⟨"G2", 1, "B2", "E2", "N", "BEEF10", 1, "A2", ""⟩ :
        OrderRow).timestamp <
      (⟨"G1", 2, "B1", "E1", "N", "BEEF10", 1, "A1", ""⟩ :
        OrderRow).timestamp ∧
    (1 : Int) <
      (⟨"G1", 2, "B1", "E1", "N", "BEEF10", 1, "A1", ""⟩ : OrderRow).qty +
      (⟨"G2", 1, "B2", "E2", "N", "BEEF10", 1, "A2", ""⟩ : OrderRow).qty ∧
    (runInventoryEngine [⟨"Meat", "Wagyu", 120, 1, "BEEF10"⟩]
        [⟨"G1", 2, "B1", "E1", "N", "BEEF10", 1, "A1", ""⟩,
         ⟨"G2", 1, "B2", "E2", "N", "BEEF10", 1, "A2", ""⟩]).2
      = ["Confirmed", "Waitlisted"] := by
  refine ⟨by decide, by decide, by decide⟩

/-- Claim C1 (amended): the engine allocates in input-array (sheet-row)
order, ignoring timestamps. For two lines on the same item whose
quantities sum to more than the remaining stock (and the first fits), the
line earlier in the array is `Confirmed` and the later one `Waitlisted`,
whatever their timestamps are. -/
theorem engine_fifo_input_order (master : List MasterRow)
    (l1 l2 : OrderRow) (stock0 : StockLevel)
    (hm : l2.mnemonic = l1.mnemonic)
    (hl : lookupStock (initStock master) l1.mnemonic = some stock0)
    (h1 : l1.qty ≤ stock0.remaining)
    (h2 : stock0.remaining < l1.qty + l2.qty) :
    (runInventoryEngine master [l1, l2]).2 = ["Confirmed", "Waitlisted"] := by
  have hstep1 : allocStep (initStock master) l1 =
      (setStock (initStock master) l1.mnemonic
        { stock0 with remaining := stock0.remaining - l1.qty,
                      sold := stock0.sold + l1.qty }, "Confirmed") := by
    unfold allocStep
    rw [hl]
    simp [ge_iff_le, h1]
  have hlook2 : lookupStock
      (setStock (initStock master) l1.mnemonic
        { stock0 with remaining := stock0.remaining - l1.qty,
                      sold := stock0.sold + l1.qty }) l2.mnemonic
      = some { stock0 with remaining := stock0.remaining - l1.qty,
                           sold := stock0.sold + l1.qty } := by
    rw [hm]
    exact lookupStock_setStock_self _ hl
  have hguard : ¬(stock0.remaining - l1.qty ≥ l2.qty) := by omega
  unfold runInventoryEngine
  simp only [runAlloc, hstep1]
  simp [allocStep, hlook2, hguard]

/-- Witness for the amended C1 at a concrete input. -/
theorem engine_fifo_input_order_witness :
    (runInventoryEngine [⟨"Meat", "Wagyu", 120, 5, "BEEF10"⟩]
        [⟨"G1", 9, "B1", "E1", "N", "BEEF10", 3, "A1", ""⟩,
         ⟨"G2", 1, "B2", "E2", "N", "BEEF10", 3, "A2", ""⟩]).2
      = ["Confirmed", "Waitlisted"] :=
  engine_fifo_input_order [⟨"Meat", "Wagyu", 120, 5, "BEEF10"⟩]
    ⟨"G1", 9, "B1", "E1", "N", "BEEF10", 3, "A1", ""⟩
    ⟨"G2", 1, "B2", "E2", "N", "BEEF10", 3, "A2", ""⟩
    ⟨"Meat", "Wagyu", 120, 5, 5, 0, 0⟩
    (by decide) (by decide) (by decide) (by decide)

/-! ## Claim C2 -/

/-- Claim C2: after `runInventoryEngine`, every stock record satisfies
`sold + remaining = initial` with `remaining ≥ 0` (hence
`sold ≤ initial`), provided the master initial quantities are
non-negative; and the buyer-path `handleSubmit` never stores a negative
item quantity (the decrement is clamped at zero). -/
theorem engine_conservation_local_nonneg :
    (∀ (master : List MasterRow) (rows : List OrderRow),
      (∀ r ∈ master, 0 ≤ r.initial) →
      ∀ p ∈ (runInventoryEngine master rows).1,
        p.2.sold + p.2.remaining = p.2.initial ∧ 0 ≤ p.2.remaining ∧
          p.2.sold ≤ p.2.initial) ∧
    (∀ (form : BuyerForm) (now oid : String) (lines : List (Item × Int))
       (items0 : List Item) (orders0 : List Order),
      (∀ i ∈ items0, 0 ≤ i.quantity) →
      ∀ i ∈ (placeOrder form now oid lines items0 orders0).1,
        0 ≤ i.quantity) := by
  constructor
  · intro master rows hm p hp
    have hinv := stockInv_runAlloc rows (stockInv_initStock hm)
    obtain ⟨h1, h2⟩ := hinv p hp
    exact ⟨h1, h2, by omega⟩
  · intro form now oid lines items0 orders0 h i hi
    exact placeOrder_items_nonneg form now oid lines orders0 h i hi

/-- Witness for C2 at a concrete input: item `A` starts at 2, one unit is
sold, and the final record `(initial 2, remaining 1, sold 1)` satisfies
conservation; the buyer path leaves the over-requested item at 0, not
negative. -/
theorem engine_conservation_local_nonneg_witness :
    ((("A", (⟨"C", "N", 7, 2, 1, 1, 0⟩ : StockLevel)) :
        String × StockLevel).2.sold +
      (("A", (⟨"C", "N", 7, 2, 1, 1, 0⟩ : StockLevel)) :
        String × StockLevel).2.remaining =
      (("A", (⟨"C", "N", 7, 2, 1, 1, 0⟩ : StockLevel)) :
        String × StockLevel).2.initial ∧
      (0 : Int) ≤ (("A", (⟨"C", "N", 7, 2, 1, 1, 0⟩ : StockLevel)) :
        String × StockLevel).2.remaining ∧
      (("A", (⟨"C", "N", 7, 2, 1, 1, 0⟩ : StockLevel)) :
        String × StockLevel).2.sold ≤
      (("A", (⟨"C", "N", 7, 2, 1, 1, 0⟩ : StockLevel)) :
        String × StockLevel).2.initial) ∧
    (0 : Int) ≤ (⟨"1", "C", "N", 4, 0, "M", 0, false⟩ : Item).quantity :=
  ⟨engine_conservation_local_nonneg.1 [⟨"C", "N", 7, 2, "A"⟩]
      [⟨"G", 1, "B", "E", "N", "A", 1, "X", ""⟩] (by decide)
      ("A", ⟨"C", "N", 7, 2, 1, 1, 0⟩) (by decide),
   engine_conservation_local_nonneg.2 ⟨"B", "E", "X"⟩ "T" "OID"
      [(⟨"1", "C", "N", 4, 3, "M", 0, false⟩, 5)]
      [⟨"1", "C", "N", 4, 3, "M", 0, false⟩] [] (by decide)
      ⟨"1", "C", "N", 4, 0, "M", 0, false⟩ (by decide)⟩

/-! ## Claim C3 -/

/-- Claim C3: a line whose mnemonic resolves to no stock record is marked
`Waitlisted` and its processing is a no-op on the stock levels: the final
levels equal those of the run with the line removed, and the status list
is the surrounding statuses with `Waitlisted` spliced in (never
`Confirmed`, and no error — the engine is a total function). -/
theorem engine_unknown_mnemonic_waitlists (master : List MasterRow)
    (pre post : List OrderRow) (o : OrderRow)
    (h : lookupStock (initStock master) o.mnemonic = none) :
    (runInventoryEngine master (pre ++ o :: post)).1
      = (runInventoryEngine master (pre ++ post)).1 ∧
    (runInventoryEngine master (pre ++ o :: post)).2
      = (runInventoryEngine master pre).2 ++
          "Waitlisted" ::
            (runAlloc (runInventoryEngine master pre).1 post).2 := by
  have hpre : lookupStock (runAlloc (initStock master) pre).1 o.mnemonic
      = none := lookup_none_runAlloc pre h
  have hstep : allocStep (runAlloc (initStock master) pre).1 o
      = ((runAlloc (initStock master) pre).1, "Waitlisted") :=
    allocStep_of_lookup_none hpre
  unfold runInventoryEngine
  constructor
  · rw [runAlloc_append, runAlloc_append]
    simp only [runAlloc, hstep]
  · rw [runAlloc_append]
    simp only [runAlloc, hstep]

/-- Witness for C3 at a concrete input: the `GHOST1` line is waitlisted
and the stock figures match the run without it. -/
theorem engine_unknown_mnemonic_waitlists_witness :
    (runInventoryEngine [⟨"C", "N", 7, 5, "A"⟩]
        [⟨"G1", 1, "B", "E", "N", "A", 2, "X", ""⟩,
         ⟨"G2", 2, "B", "E", "N", "GHOST1", 1, "X", ""⟩]).1
      = (runInventoryEngine [⟨"C", "N", 7, 5, "A"⟩]
          [⟨"G1", 1, "B", "E", "N", "A", 2, "X", ""⟩]).1 ∧
    (runInventoryEngine [⟨"C", "N", 7, 5, "A"⟩]
        [⟨"G1", 1, "B", "E", "N", "A", 2, "X", ""⟩,
         ⟨"G2", 2, "B", "E", "N", "GHOST1", 1, "X", ""⟩]).2
      = (runInventoryEngine [⟨"C", "N", 7, 5, "A"⟩]
          [⟨"G1", 1, "B", "E", "N", "A", 2, "X", ""⟩]).2 ++
          "Waitlisted" ::
            (runAlloc (runInventoryEngine [⟨"C", "N", 7, 5, "A"⟩]
              [⟨"G1", 1, "B", "E", "N", "A", 2, "X", ""⟩]).1 []).2 :=
  engine_unknown_mnemonic_waitlists [⟨"C", "N", 7, 5, "A"⟩]
    [⟨"G1", 1, "B", "E", "N", "A", 2, "X", ""⟩] []
    ⟨"G2", 2, "B", "E", "N", "GHOST1", 1, "X", ""⟩ (by decide)

/-! ## Claim C4 -/

/-- Claim C4, quantified over both cited code sites, is false: in the
buyer-path `handleSubmit` (one of the claim's sources) a waitlisted line
still deducts `min(requested, stored)` from the stored quantity. With 3
units stored and 5 requested, the line is waitlisted yet the stored
quantity drops from 3 to 0 — a deduction of 3, which is neither the full
requested 5 nor 0. -/
theorem buyer_waitlisted_partial_decrement_cex :
    ((buyerStep ⟨"B", "E", "X"⟩ "T" "OID"
        ([⟨"1", "C", "N", 4, 3, "M", 0, false⟩], []) 0
        (⟨"1", "C", "N", 4, 3, "M", 0, false⟩, 5)).2.map
          (fun o => (o.status, o.quantity))
      = [(OrderStatus.waitlisted, 5)]) ∧
    qtyOfId [⟨"1", "C", "N", 4, 3, "M", 0, false⟩] "1" = some 3 ∧
    qtyOfId (buyerStep ⟨"B", "E", "X"⟩ "T" "OID"
        ([⟨"1", "C", "N", 4, 3, "M", 0, false⟩], []) 0
        (⟨"1", "C", "N", 4, 3, "M", 0, false⟩, 5)).1 "1" = some 0 ∧
    ((3 : Int) - 0 ≠ 0) ∧ ((3 : Int) - 0 ≠ 5) := by
  refine ⟨by decide, by decide, by decide, by decide, by decide⟩

/-- Claim C4 (amended): in the allocation engine, allocation is
all-or-nothing exactly as claimed — the written status is one of
`Confirmed`/`Waitlisted`; a confirmed line deducts exactly its full
quantity from the item's remaining stock and a waitlisted line deducts
nothing (only `waitlisted` demand grows), and an unknown mnemonic leaves
the levels untouched. In the local buyer path the status is still exactly
one of the two values, but the stored quantity is decremented by the
requested amount clamped at zero even for a waitlisted line. -/
theorem allocation_all_or_nothing_amended :
    (∀ (s : StockLevels) (o : OrderRow),
      ((allocStep s o).2 = "Confirmed" ∨ (allocStep s o).2 = "Waitlisted") ∧
      (∀ stock, lookupStock s o.mnemonic = some stock →
        ((allocStep s o).2 = "Confirmed" →
          lookupStock (allocStep s o).1 o.mnemonic
            = some { stock with remaining := stock.remaining - o.qty,
                                sold := stock.sold + o.qty }) ∧
        ((allocStep s o).2 = "Waitlisted" →
          lookupStock (allocStep s o).1 o.mnemonic
            = some { stock with
                       waitlisted := stock.waitlisted + o.qty })) ∧
      (lookupStock s o.mnemonic = none → allocStep s o = (s, "Waitlisted"))) ∧
    (∀ (form : BuyerForm) (now oid : String) (items : List Item)
       (ords : List Order) (idx : Nat) (it : Item) (qty : Int),
      (∃ o', (buyerStep form now oid (items, ords) idx (it, qty)).2
          = ords ++ [o'] ∧
        (o'.status = OrderStatus.confirmed ∨
          o'.status = OrderStatus.waitlisted) ∧
        o'.quantity = qty) ∧
      (∀ q0, qtyOfId items it.id = some q0 →
        qtyOfId (buyerStep form now oid (items, ords) idx (it, qty)).1 it.id
          = some (max 0 (q0 - qty)))) := by
  constructor
  · intro s o
    refine ⟨?_, ?_, ?_⟩
    · unfold allocStep
      cases hl : lookupStock s o.mnemonic with
      | none => right; rfl
      | some stock =>
        by_cases hr : stock.remaining ≥ o.qty
        · left; simp [hr]
        · right; simp [hr]
    · intro stock hstock
      unfold allocStep
      rw [hstock]
      by_cases hr : stock.remaining ≥ o.qty
      · simp only [hr, if_true]
        constructor
        · intro _
          exact lookupStock_setStock_self _ hstock
        · intro hc
          simp at hc
      · simp only [hr, if_false]
        constructor
        · intro hc
          simp at hc
        · intro _
          exact lookupStock_setStock_self _ hstock
    · intro hnone
      exact allocStep_of_lookup_none hnone
  · intro form now oid items ords idx it qty
    constructor
    · refine ⟨_, buyerStep_orders form now oid (items, ords) idx (it, qty),
        ?_, rfl⟩
      by_cases hq : it.quantity ≥ qty
      · left; simp [hq]
      · right; simp [hq]
    · intro q0 h
      exact qtyOfId_buyerStep_self form now oid ords idx qty h

/-- Witness for the amended C4 at a concrete input: with 5 remaining and 2
requested, the engine confirms and deducts exactly 2. -/
theorem allocation_all_or_nothing_amended_witness :
    (allocStep [("A", ⟨"C", "N", 7, 5, 5, 0, 0⟩)]
        ⟨"G", 1, "B", "E", "N", "A", 2, "X", ""⟩).2 = "Confirmed" →
      lookupStock (allocStep [("A", ⟨"C", "N", 7, 5, 5, 0, 0⟩)]
          ⟨"G", 1, "B", "E", "N", "A", 2, "X", ""⟩).1
          (⟨"G", 1, "B", "E", "N", "A", 2, "X", ""⟩ : OrderRow).mnemonic
        = some ⟨"C", "N", 7, 5, 3, 2, 0⟩ :=
  ((allocation_all_or_nothing_amended.1
      [("A", ⟨"C", "N", 7, 5, 5, 0, 0⟩)]
      ⟨"G", 1, "B", "E", "N", "A", 2, "X", ""⟩).2.1
    ⟨"C", "N", 7, 5, 5, 0, 0⟩ (by decide)).1

/-! ## Claim C5 -/

/-- Claim C5: the engine is idempotent under replay. Allocation reads only
the mnemonic and quantity columns and unconditionally overwrites the
status column, so rerunning `runInventoryEngine` on the orders it has just
re-statused reproduces the same stock figures, the same per-line statuses,
and the same written-back order rows. -/
theorem engine_idempotent_replay (master : List MasterRow)
    (rows : List OrderRow) :
    runInventoryEngine master (engineOrdersOut master rows)
      = runInventoryEngine master rows ∧
    engineOrdersOut master (engineOrdersOut master rows)
      = engineOrdersOut master rows := by
  have h1 : runInventoryEngine master (engineOrdersOut master rows)
      = runInventoryEngine master rows := by
    unfold runInventoryEngine
    exact runAlloc_congr _ (engineOrdersOut_map_rowKey master rows)
  refine ⟨h1, ?_⟩
  conv_lhs => rw [engineOrdersOut, h1]
  unfold engineOrdersOut
  exact zipWith_status_overwrite rows _

/-! ## Claim C9 -/

/-- Claim C9: in the buyer checkout, every processed line decrements its
item's stored quantity to `max 0 (old − requested)` — the clamped
decrement is applied whatever status the line receives, so a waitlisted
line still consumes the remaining displayed stock; items with other ids
are untouched, and the appended line carries the optimistic status. -/
theorem local_order_clamped_decrement (form : BuyerForm) (now oid : String)
    (items : List Item) (ords : List Order) (idx : Nat) (it : Item)
    (qty : Int) :
    (∀ q0, qtyOfId items it.id = some q0 →
      qtyOfId (buyerStep form now oid (items, ords) idx (it, qty)).1 it.id
        = some (max 0 (q0 - qty))) ∧
    (∀ tid, tid ≠ it.id →
      qtyOfId (buyerStep form now oid (items, ords) idx (it, qty)).1 tid
        = qtyOfId items tid) ∧
    (it.quantity < qty →
      ∃ o', (buyerStep form now oid (items, ords) idx (it, qty)).2
          = ords ++ [o'] ∧ o'.status = OrderStatus.waitlisted) := by
  refine ⟨?_, ?_, ?_⟩
  · intro q0 h
    exact qtyOfId_buyerStep_self form now oid ords idx qty h
  · intro tid h
    exact qtyOfId_buyerStep_other form now oid ords idx qty h
  · intro hlt
    refine ⟨_, buyerStep_orders form now oid (items, ords) idx (it, qty), ?_⟩
    have : ¬(it.quantity ≥ qty) := by omega
    simp [this]

/-- Witness for C9 at a concrete input: 3 stored, 5 requested — the line
is waitlisted and the stored quantity still drops to `max 0 (3 − 5) = 0`. -/
theorem local_order_clamped_decrement_witness :
    qtyOfId (buyerStep ⟨"B", "E", "X"⟩ "T" "OID"
        ([⟨"1", "C", "N", 4, 3, "M", 0, false⟩], []) 0
        (⟨"1", "C", "N", 4, 3, "M", 0, false⟩, 5)).1
        (⟨"1", "C", "N", 4, 3, "M", 0, false⟩ : Item).id
      = some (max 0 ((3 : Int) - 5)) :=
  (local_order_clamped_decrement ⟨"B", "E", "X"⟩ "T" "OID"
      [⟨"1", "C", "N", 4, 3, "M", 0, false⟩] [] 0
      ⟨"1", "C", "N", 4, 3, "M", 0, false⟩ 5).1 3 (by decide)

/-! ## Grouping lemmas -/

theorem lookupGroup_setGroup_self {gs : GroupsAssoc} {k : String}
    {g : GroupedOrder} (v : GroupedOrder) (h : lookupGroup gs k = some g) :
    lookupGroup (setGroup gs k v) k = some v := by
  induction gs with
  | nil => simp [lookupGroup] at h
  | cons p rest ih =>
    by_cases hp : p.1 = k
    · simp [lookupGroup, setGroup, hp]
    · simp only [lookupGroup, setGroup, if_neg hp] at h ⊢
      exact ih h

theorem lookupGroup_setGroup_other {gs : GroupsAssoc} {k k' : String}
    (v : GroupedOrder) (h : k' ≠ k) :
    lookupGroup (setGroup gs k v) k' = lookupGroup gs k' := by
  induction gs with
  | nil => simp [lookupGroup, setGroup]
  | cons p rest ih =>
    by_cases hp : p.1 = k
    · have h1 : ¬(k = k') := fun hc => h hc.symm
      have h2 : ¬(p.1 = k') := by rw [hp]; exact h1
      simp only [setGroup, if_pos hp, lookupGroup, if_neg h1, if_neg h2]
      exact ih
    · simp only [setGroup, if_neg hp, lookupGroup]
      by_cases hp' : p.1 = k'
      · simp [hp']
      · simp only [if_neg hp']
        exact ih

theorem lookupGroup_append_last {gs : GroupsAssoc} {k k0 : String}
    (v : GroupedOrder) (h : lookupGroup gs k = none) :
    lookupGroup (gs ++ [(k0, v)]) k
      = if k0 = k then some v else none := by
  induction gs with
  | nil => simp [lookupGroup]
  | cons p rest ih =>
    by_cases hp : p.1 = k
    · simp [lookupGroup, hp] at h
    · simp only [lookupGroup, if_neg hp] at h
      simp only [List.cons_append, lookupGroup, if_neg hp]
      exact ih h

theorem lookupGroup_append_other {gs : GroupsAssoc} {k k0 : String}
    (v : GroupedOrder) (h : k0 ≠ k) :
    lookupGroup (gs ++ [(k0, v)]) k = lookupGroup gs k := by
  induction gs with
  | nil => simp [lookupGroup, if_neg h]
  | cons p rest ih =>
    by_cases hp : p.1 = k
    · simp [List.cons_append, lookupGroup, hp]
    · simp only [List.cons_append, lookupGroup, if_neg hp]
      exact ih

theorem lookupGroup_addLine (price : String → Rat) (gs : GroupsAssoc)
    (o : Order) (k : String) :
    lookupGroup (addLine price gs o) k =
      if normKey o = k then
        some (pushLine price ((lookupGroup gs k).getD (freshGroup o)) o)
      else lookupGroup gs k := by
  simp only [addLine]
  cases hl : lookupGroup gs (normKey o) with
  | none =>
    by_cases hk : normKey o = k
    · subst hk
      rw [lookupGroup_append_last _ hl, if_pos rfl, if_pos rfl, hl]
      rfl
    · rw [if_neg hk]
      exact lookupGroup_append_other _ hk
  | some g =>
    by_cases hk : normKey o = k
    · subst hk
      rw [if_pos rfl, hl, Option.getD_some]
      exact lookupGroup_setGroup_self _ hl
    · rw [if_neg hk]
      exact lookupGroup_setGroup_other _ (fun hc => hk hc.symm)

theorem groupLines_addLine (price : String → Rat) (gs : GroupsAssoc)
    (o : Order) (k : String) :
    groupLines (addLine price gs o) k =
      if normKey o = k then
        some ((groupLines gs k).getD [] ++ [o])
      else groupLines gs k := by
  unfold groupLines
  rw [lookupGroup_addLine]
  by_cases hk : normKey o = k
  · simp only [if_pos hk]
    cases hl : lookupGroup gs k with
    | none => simp [pushLine, freshGroup]
    | some g => simp [pushLine]
  · simp [if_neg hk]

theorem groupLines_foldl (price : String → Rat) (rows : List Order)
    (gs : GroupsAssoc) (k : String) :
    groupLines (rows.foldl (addLine price) gs) k =
      match groupLines gs k with
      | some ls => some (ls ++ rows.filter (fun o => normKey o = k))
      | none =>
          if rows.filter (fun o => normKey o = k) = [] then none
          else some (rows.filter (fun o => normKey o = k)) := by
  induction rows generalizing gs with
  | nil =>
    cases h : groupLines gs k with
    | none => simp [h]
    | some ls => simp [h]
  | cons o rest ih =>
    simp only [List.foldl_cons]
    rw [ih]
    by_cases hk : normKey o = k
    · rw [groupLines_addLine]
      simp only [if_pos hk]
      have hfil : (o :: rest).filter (fun o => normKey o = k)
          = o :: rest.filter (fun o => normKey o = k) := by
        simp [List.filter_cons, hk]
      cases h : groupLines gs k with
      | none => simp [h, hfil]
      | some ls => simp [h, hfil]
    · rw [groupLines_addLine]
      simp only [if_neg hk]
      have hfil : (o :: rest).filter (fun o => normKey o = k)
          = rest.filter (fun o => normKey o = k) := by
        simp [List.filter_cons, hk]
      rw [hfil]

theorem keys_setGroup (gs : GroupsAssoc) (k : String) (v : GroupedOrder) :
    (setGroup gs k v).map Prod.fst = gs.map Prod.fst := by
  induction gs with
  | nil => rfl
  | cons p rest ih =>
    by_cases hp : p.1 = k
    · simp [setGroup, hp, ih]
    · simp [setGroup, hp, ih]

theorem lookupGroup_isSome_iff_mem_keys (gs : GroupsAssoc) (k : String) :
    (lookupGroup gs k).isSome ↔ k ∈ gs.map Prod.fst := by
  induction gs with
  | nil => simp [lookupGroup]
  | cons p rest ih =>
    by_cases hp : p.1 = k
    · simp [lookupGroup, hp]
    · simp only [lookupGroup, if_neg hp, List.map_cons, List.mem_cons]
      rw [ih]
      constructor
      · intro h; right; exact h
      · intro h
        rcases h with h | h
        · exact absurd h.symm hp
        · exact h

theorem keys_addLine (price : String → Rat) (gs : GroupsAssoc) (o : Order) :
    (addLine price gs o).map Prod.fst =
      if (lookupGroup gs (normKey o)).isSome then gs.map Prod.fst
      else gs.map Prod.fst ++ [normKey o] := by
  simp only [addLine]
  cases hl : lookupGroup gs (normKey o) with
  | none => simp [hl]
  | some g => simp [hl, keys_setGroup]

theorem keys_nodup_foldl (price : String → Rat) (rows : List Order)
    (gs : GroupsAssoc) (h : (gs.map Prod.fst).Nodup) :
    ((rows.foldl (addLine price) gs).map Prod.fst).Nodup := by
  induction rows generalizing gs with
  | nil => simpa using h
  | cons o rest ih =>
    simp only [List.foldl_cons]
    refine ih _ ?_
    rw [keys_addLine]
    by_cases hl : (lookupGroup gs (normKey o)).isSome
    · simpa [hl] using h
    · rw [if_neg hl]
      rw [List.nodup_append]
      refine ⟨h, List.nodup_singleton _, ?_⟩
      intro a ha hb
      simp only [List.mem_singleton] at hb
      subst hb
      exact hl ((lookupGroup_isSome_iff_mem_keys gs (normKey o)).mpr ha)

theorem lookupGroup_of_mem_nodup {gs : GroupsAssoc} {k : String}
    {g : GroupedOrder} (hmem : (k, g) ∈ gs)
    (hnd : (gs.map Prod.fst).Nodup) : lookupGroup gs k = some g := by
  induction gs with
  | nil => simp at hmem
  | cons p rest ih =>
    simp only [List.map_cons, List.nodup_cons] at hnd
    rcases List.mem_cons.mp hmem with h | h
    · rw [← h]
      simp [lookupGroup]
    · have hk : k ∈ rest.map Prod.fst :=
        List.mem_map.mpr ⟨(k, g), h, rfl⟩
      have hp : ¬(p.1 = k) := fun hc => hnd.1 (hc ▸ hk)
      simp only [lookupGroup, if_neg hp]
      exact ih h hnd.2

theorem overallStatusOf_spec (lines : List Order) (hne : lines ≠ []) :
    (overallStatusOf lines = "confirmed" ↔
      ∀ l ∈ lines, l.status = OrderStatus.confirmed) ∧
    (overallStatusOf lines = "waitlisted" ↔
      ∀ l ∈ lines, l.status = OrderStatus.waitlisted) ∧
    ((∃ l ∈ lines, l.status = OrderStatus.confirmed) →
      (∃ l ∈ lines, l.status = OrderStatus.waitlisted) →
      overallStatusOf lines = "mixed") := by
  by_cases hw : lines.any (fun l => l.status == OrderStatus.waitlisted)
  · by_cases hc : lines.any (fun l => l.status == OrderStatus.confirmed)
    · have hov : overallStatusOf lines = "mixed" := by
        simp [overallStatusOf, hc, hw]
      rcases List.any_eq_true.mp hw with ⟨lw, hlw, hlws⟩
      rcases List.any_eq_true.mp hc with ⟨lc, hlc, hlcs⟩
      rw [beq_iff_eq] at hlws hlcs
      refine ⟨?_, ?_, fun _ _ => hov⟩
      · rw [hov]
        constructor
        · intro hcontra
          exact absurd hcontra (by decide)
        · intro hall
          have h1 := hall lw hlw
          rw [h1] at hlws
          exact absurd hlws (by decide)
      · rw [hov]
        constructor
        · intro hcontra
          exact absurd hcontra (by decide)
        · intro hall
          have h1 := hall lc hlc
          rw [h1] at hlcs
          exact absurd hlcs (by decide)
    · have hov : overallStatusOf lines = "waitlisted" := by
        simp [overallStatusOf, hc, hw]
      have hall : ∀ l ∈ lines, l.status = OrderStatus.waitlisted := by
        intro l hl
        cases hst : l.status with
        | waitlisted => rfl
        | confirmed =>
          exact absurd (List.any_eq_true.mpr ⟨l, hl, by simp [hst]⟩) hc
      refine ⟨?_, ?_, ?_⟩
      · rw [hov]
        constructor
        · intro hcontra
          exact absurd hcontra (by decide)
        · intro h2
          rcases List.exists_mem_of_ne_nil lines hne with ⟨l, hl⟩
          have := h2 l hl
          have h3 := hall l hl
          rw [this] at h3
          exact absurd h3 (by decide)
      · exact ⟨fun _ => hall, fun _ => hov⟩
      · intro ⟨lc, hlc, hlcs⟩ _
        have := hall lc hlc
        rw [hlcs] at this
        exact absurd this (by decide)
  · have hall : ∀ l ∈ lines, l.status = OrderStatus.confirmed := by
      intro l hl
      cases hst : l.status with
      | confirmed => rfl
      | waitlisted =>
        exact absurd (List.any_eq_true.mpr ⟨l, hl, by simp [hst]⟩) hw
    have hov : overallStatusOf lines = "confirmed" := by
      simp only [overallStatusOf]
      have hwf : lines.any (fun l => l.status == OrderStatus.waitlisted)
          = false := by
        rw [List.any_eq_false]
        intro l hl
        simp [hall l hl]
      simp [hwf]
    refine ⟨⟨fun _ => hall, fun _ => hov⟩, ?_, ?_⟩
    · rw [hov]
      constructor
      · intro hcontra
        exact absurd hcontra (by decide)
      · intro h2
        rcases List.exists_mem_of_ne_nil lines hne with ⟨l, hl⟩
        have := h2 l hl
        have h3 := hall l hl
        rw [this] at h3
        exact absurd h3 (by decide)
    · intro _ ⟨lw, hlw, hlws⟩
      have := hall lw hlw
      rw [hlws] at this
      exact absurd this (by decide)

theorem groupsAssoc_lines_ne_nil (items : List Item) (orders : List Order)
    {k : String} {g0 : GroupedOrder}
    (hmem : (k, g0) ∈ groupsAssoc items orders) : g0.lines ≠ [] := by
  have hnd : ((groupsAssoc items orders).map Prod.fst).Nodup := by
    simpa [groupsAssoc] using
      keys_nodup_foldl (priceOf items) orders [] (by simp)
  have hlk : lookupGroup (groupsAssoc items orders) k = some g0 :=
    lookupGroup_of_mem_nodup hmem hnd
  have hgl : groupLines (groupsAssoc items orders) k = some g0.lines := by
    simp [groupLines, hlk]
  have hfold : groupLines (groupsAssoc items orders) k =
      if orders.filter (fun o => normKey o = k) = [] then none
      else some (orders.filter (fun o => normKey o = k)) := by
    have h := groupLines_foldl (priceOf items) orders [] k
    have hbase : groupLines ([] : GroupsAssoc) k = none := rfl
    rw [hbase] at h
    simpa [groupsAssoc] using h
  rw [hfold] at hgl
  by_cases hf : orders.filter (fun o => normKey o = k) = []
  · rw [if_pos hf] at hgl
    exact absurd hgl (by simp)
  · rw [if_neg hf] at hgl
    rw [Option.some.injEq] at hgl
    intro hc
    rw [hc] at hgl
    exact hf hgl

/-! ## Claim C6 -/

/-- Claim C6: the `overallStatus` a group receives is `confirmed` exactly
when every line is confirmed, `waitlisted` exactly when every line is
waitlisted, and `mixed` as soon as the group holds one line of each
status; it is a pure function of the lines' statuses. -/
theorem group_overall_status (items : List Item) (orders : List Order) :
    (∀ g ∈ groupedOrders items orders,
      g.overallStatus = overallStatusOf g.lines ∧
      (g.overallStatus = "confirmed" ↔
        ∀ l ∈ g.lines, l.status = OrderStatus.confirmed) ∧
      (g.overallStatus = "waitlisted" ↔
        ∀ l ∈ g.lines, l.status = OrderStatus.waitlisted) ∧
      ((∃ l ∈ g.lines, l.status = OrderStatus.confirmed) →
        (∃ l ∈ g.lines, l.status = OrderStatus.waitlisted) →
        g.overallStatus = "mixed")) ∧
    (∀ ls ls', ls.map Order.status = ls'.map Order.status →
      overallStatusOf ls = overallStatusOf ls') := by
  constructor
  · intro g hg
    rcases List.mem_map.mp hg with ⟨p, hp, hrw⟩
    obtain ⟨k, g0⟩ := p
    have hne : g0.lines ≠ [] := groupsAssoc_lines_ne_nil items orders hp
    have hl : g.lines = g0.lines := by rw [← hrw]; rfl
    have ho : g.overallStatus = overallStatusOf g0.lines := by
      rw [← hrw]; rfl
    rw [ho, hl]
    exact ⟨rfl, overallStatusOf_spec g0.lines hne⟩
  · intro ls ls' h
    have e1 : ∀ (xs : List Order) (c : OrderStatus),
        xs.any (fun l => l.status == c)
          = (xs.map Order.status).any (fun s => s == c) := by
      intro xs c
      induction xs with
      | nil => rfl
      | cons x xs ih => simp [List.any_cons, ih]
    simp only [overallStatusOf]
    rw [e1 ls, e1 ls, e1 ls', e1 ls', h]

/-! ## Claim C7 -/

/-- Claim C7: the grouping pass produces exactly one group per distinct
normalized key — keys are compared after uppercasing, and a missing/empty
`orderId` maps to the shared `UNKNOWN` key — the key set is duplicate-free,
a key is present exactly when some line normalizes to it, every line lands
in the group of its own key, and every empty-`orderId` line lands in the
single `UNKNOWN` group. -/
theorem grouping_one_group_per_key (items : List Item) (orders : List Order) :
    ((groupsAssoc items orders).map Prod.fst).Nodup ∧
    (∀ k, (lookupGroup (groupsAssoc items orders) k).isSome = true ↔
      ∃ o ∈ orders, normKey o = k) ∧
    (∀ o ∈ orders, ∃ g,
      lookupGroup (groupsAssoc items orders) (normKey o) = some g ∧
      o ∈ g.lines) ∧
    (∀ o ∈ orders, o.orderId = "" →
      ∃ g, lookupGroup (groupsAssoc items orders) "UNKNOWN" = some g ∧
        o ∈ g.lines) := by
  have hfold : ∀ k, groupLines (groupsAssoc items orders) k =
      if orders.filter (fun o => normKey o = k) = [] then none
      else some (orders.filter (fun o => normKey o = k)) := by
    intro k
    have h := groupLines_foldl (priceOf items) orders [] k
    have hbase : groupLines ([] : GroupsAssoc) k = none := rfl
    rw [hbase] at h
    simpa [groupsAssoc] using h
  have hthird : ∀ o ∈ orders, ∃ g,
      lookupGroup (groupsAssoc items orders) (normKey o) = some g ∧
      o ∈ g.lines := by
    intro o ho
    have hmemf : o ∈ orders.filter (fun o' => normKey o' = normKey o) :=
      List.mem_filter.mpr ⟨ho, by simp⟩
    have hfne : orders.filter (fun o' => normKey o' = normKey o) ≠ [] :=
      List.ne_nil_of_mem hmemf
    have h := hfold (normKey o)
    rw [if_neg hfne] at h
    rcases Option.map_eq_some'.mp h with ⟨g, hg, hgl⟩
    exact ⟨g, hg, hgl ▸ hmemf⟩
  refine ⟨?_, ?_, hthird, ?_⟩
  · simpa [groupsAssoc] using
      keys_nodup_foldl (priceOf items) orders [] (by simp)
  · intro k
    constructor
    · intro hs
      rcases Option.isSome_iff_exists.mp hs with ⟨g, hgg⟩
      have hgl : groupLines (groupsAssoc items orders) k = some g.lines := by
        simp [groupLines, hgg]
      rw [hfold k] at hgl
      by_cases hf : orders.filter (fun o => normKey o = k) = []
      · rw [if_pos hf] at hgl
        exact absurd hgl (by simp)
      · rcases List.exists_mem_of_ne_nil _ hf with ⟨o, hofil⟩
        rcases List.mem_filter.mp hofil with ⟨hoo, hok⟩
        exact ⟨o, hoo, by simpa using hok⟩
    · intro ⟨o, ho, hk⟩
      have hmemf : o ∈ orders.filter (fun o' => normKey o' = k) :=
        List.mem_filter.mpr ⟨ho, by simp [hk]⟩
      have hfne : orders.filter (fun o' => normKey o' = k) ≠ [] :=
        List.ne_nil_of_mem hmemf
      have h := hfold k
      rw [if_neg hfne] at h
      rcases Option.map_eq_some'.mp h with ⟨g, hg, _⟩
      simp [hg]
  · intro o ho hid
    have hnk : normKey o = "UNKNOWN" := by
      show strUpper (if o.orderId = "" then "UNKNOWN" else o.orderId)
        = "UNKNOWN"
      rw [hid, if_pos rfl]
      decide
    rw [← hnk]
    exact hthird o ho

/-- Witness for C6 at a concrete input: a two-line group with one
confirmed and one waitlisted line gets `overallStatus = "mixed"`. -/
theorem group_overall_status_witness :
    (finishGroup (pushLine (priceOf [])
      (pushLine (priceOf [])
        (freshGroup ⟨"i1", "g", "", "N", "M", "B", "E", 1, "A", "T",
          OrderStatus.confirmed⟩)
        ⟨"i1", "g", "", "N", "M", "B", "E", 1, "A", "T",
          OrderStatus.confirmed⟩)
      ⟨"i2", "g", "", "N", "M", "B", "E", 1, "A", "T",
        OrderStatus.waitlisted⟩)).overallStatus = "mixed" :=
  ((group_overall_status []
      [⟨"i1", "g", "", "N", "M", "B", "E", 1, "A", "T",
         OrderStatus.confirmed⟩,
       ⟨"i2", "g", "", "N", "M", "B", "E", 1, "A", "T",
         OrderStatus.waitlisted⟩]).1
    (finishGroup (pushLine (priceOf [])
      (pushLine (priceOf [])
        (freshGroup ⟨"i1", "g", "", "N", "M", "B", "E", 1, "A", "T",
          OrderStatus.confirmed⟩)
        ⟨"i1", "g", "", "N", "M", "B", "E", 1, "A", "T",
          OrderStatus.confirmed⟩)
      ⟨"i2", "g", "", "N", "M", "B", "E", 1, "A", "T",
        OrderStatus.waitlisted⟩))
    (List.mem_map.mpr
      ⟨(normKey ⟨"i2", "g", "", "N", "M", "B", "E", 1, "A", "T",
          OrderStatus.waitlisted⟩,
        pushLine (priceOf [])
          (pushLine (priceOf [])
            (freshGroup ⟨"i1", "g", "", "N", "M", "B", "E", 1, "A", "T",
              OrderStatus.confirmed⟩)
            ⟨"i1", "g", "", "N", "M", "B", "E", 1, "A", "T",
              OrderStatus.confirmed⟩)
          ⟨"i2", "g", "", "N", "M", "B", "E", 1, "A", "T",
            OrderStatus.waitlisted⟩),
        List.mem_cons_self _ _, rfl⟩)).2.2.2
    ⟨⟨"i1", "g", "", "N", "M", "B", "E", 1, "A", "T",
        OrderStatus.confirmed⟩, List.mem_cons_self _ _, rfl⟩
    ⟨⟨"i2", "g", "", "N", "M", "B", "E", 1, "A", "T",
        OrderStatus.waitlisted⟩,
      List.mem_cons_of_mem _ (List.mem_cons_self _ _), rfl⟩

/-- Witness for C7 at a concrete input: two empty-`orderId` lines and two
lines whose keys differ only in case produce exactly two groups. -/
theorem grouping_one_group_per_key_witness :
    ((groupsAssoc []
      [⟨"i1", "", "", "N", "M", "B", "E", 1, "A", "T",
         OrderStatus.confirmed⟩,
       ⟨"i2", "abc", "", "N", "M", "B", "E", 1, "A", "T",
         OrderStatus.confirmed⟩,
       ⟨"i3", "ABC", "", "N", "M", "B", "E", 1, "A", "T",
         OrderStatus.waitlisted⟩,
       ⟨"i4", "", "", "N", "M", "B", "E", 1, "A", "T",
         OrderStatus.waitlisted⟩]).map Prod.fst).Nodup :=
  (grouping_one_group_per_key []
    [⟨"i1", "", "", "N", "M", "B", "E", 1, "A", "T",
       OrderStatus.confirmed⟩,
     ⟨"i2", "abc", "", "N", "M", "B", "E", 1, "A", "T",
       OrderStatus.confirmed⟩,
     ⟨"i3", "ABC", "", "N", "M", "B", "E", 1, "A", "T",
       OrderStatus.waitlisted⟩,
     ⟨"i4", "", "", "N", "M", "B", "E", 1, "A", "T",
       OrderStatus.waitlisted⟩]).1

/-! ## Claim C8 -/

/-- Claim C8: every failure path of `fetchInventoryFromSheets` — invalid
URL, rejected fetch (network error or abort), non-OK HTTP status, or an
unparsable body — leaves the in-memory items and orders untouched; only a
parsed OK body replaces them. -/
theorem fetch_failure_preserves_state (st : AppState) (rawUrl now : String) :
    fetchInventoryFromSheets st rawUrl FetchResponse.netError now = st ∧
    (∀ body, fetchInventoryFromSheets st rawUrl
      (FetchResponse.httpResponse false body) now = st) ∧
    (∀ ok, fetchInventoryFromSheets st rawUrl
      (FetchResponse.httpResponse ok none) now = st) ∧
    (validUrl rawUrl = false →
      ∀ resp, fetchInventoryFromSheets st rawUrl resp now = st) := by
  refine ⟨?_, ?_, ?_, ?_⟩
  · unfold fetchInventoryFromSheets
    by_cases hv : validUrl rawUrl <;> simp [hv]
  · intro body
    unfold fetchInventoryFromSheets
    by_cases hv : validUrl rawUrl <;> simp [hv]
  · intro ok
    unfold fetchInventoryFromSheets
    by_cases hv : validUrl rawUrl
    · cases ok <;> simp [hv]
    · simp [hv]
  · intro hv resp
    unfold fetchInventoryFromSheets
    simp [hv]

/-- Witness for C8 at a concrete input: even an OK response with a parsed
body is discarded when the URL guard fails. -/
theorem fetch_failure_preserves_state_witness :
    fetchInventoryFromSheets
      ⟨[⟨"1", "C", "N", 4, 3, "M", 0, false⟩], []⟩ "ftp://host"
      (FetchResponse.httpResponse true (some ⟨[], []⟩)) "now"
      = ⟨[⟨"1", "C", "N", 4, 3, "M", 0, false⟩], []⟩ :=
  (fetch_failure_preserves_state
      ⟨[⟨"1", "C", "N", 4, 3, "M", 0, false⟩], []⟩ "ftp://host"
      "now").2.2.2 (by decide)
    (FetchResponse.httpResponse true (some ⟨[], []⟩))

/-! ## Claim C10 -/

/-- Claim C10: an ingested order record is mapped to `waitlisted` exactly
when its resolved raw status string (`Status`/`AppStatus`/`appStatus`/
`status`, first truthy, defaulting to `'confirmed'`) contains the
substring `waitlist` after lowercasing; any other value maps to
`confirmed` — in particular an absent status field and the sheet-side
`Processing` marker. -/
theorem synced_status_mapping (now : String) (idx : Nat) (o : RawOrder) :
    ((mapOrderRow now idx o).status = OrderStatus.waitlisted ↔
      strHasSub (statusRaw o) "waitlist" = true) ∧
    ((mapOrderRow now idx o).status = OrderStatus.confirmed ↔
      strHasSub (statusRaw o) "waitlist" = false) ∧
    (o.Status = none → o.AppStatus = none → o.appStatus = none →
      o.status = none →
      (mapOrderRow now idx o).status = OrderStatus.confirmed) ∧
    (o.Status = some "Processing" →
      (mapOrderRow now idx o).status = OrderStatus.confirmed) := by
  have hst : (mapOrderRow now idx o).status =
      if strHasSub (statusRaw o) "waitlist" then OrderStatus.waitlisted
      else OrderStatus.confirmed := rfl
  refine ⟨?_, ?_, ?_, ?_⟩
  · rw [hst]
    by_cases hb : strHasSub (statusRaw o) "waitlist" <;> simp [hb]
  · rw [hst]
    by_cases hb : strHasSub (statusRaw o) "waitlist" <;> simp [hb]
  · intro h1 h2 h3 h4
    have hr : statusRaw o = "confirmed" := by
      unfold statusRaw
      rw [h1, h2, h3, h4]
      decide
    rw [hst, hr]
    decide
  · intro h1
    have hr : statusRaw o = "processing" := by
      unfold statusRaw
      rw [h1]
      have h2 : jsOrStr (some "Processing")
          (jsOrStr o.AppStatus (jsOrStr o.appStatus
            (jsOrStr o.status "confirmed"))) = "Processing" := by
        simp [jsOrStr]
      rw [h2]
      decide
    rw [hst, hr]
    decide

/-- Witness for C10 at a concrete input: the sheet-side `Processing`
marker maps to `confirmed`. -/
theorem synced_status_mapping_witness :
    (mapOrderRow "now" 0
      { Status := some "Processing", OrderID := some "X" }).status
      = OrderStatus.confirmed :=
  (synced_status_mapping "now" 0
    { Status := some "Processing", OrderID := some "X" }).2.2.2 rfl

end LiveSales
